import Mathlib

/-!
Shallow embedding of the snap metric catalog (`control/metrics.go`).

Go strings are modelled as `List Char`, Go `[]string` namespaces as
`List (List Char)`, Go `int` as `Int`.  Fallible operations return explicit
result types; a would-be nil-pointer dereference or out-of-range slice index
is modelled by a dedicated result (`nilPanic`, `none`).  The `MTTrie` store
and the `loadedPlugin` record are not part of the reviewed sources, so they
are modelled from the spec (see their doc comments).
-/

set_option maxRecDepth 8000

/-- Namespace key codec, encoding direction: `getMetricKey` in
`control/metrics.go` is `strings.Join(metric, ".")`.  `joinDot` is Go's
`strings.Join` with separator `"."`. -/
def joinDot : List (List Char) → List Char
  | [] => []
  | [s] => s
  | s :: rest => s ++ '.' :: joinDot rest

/-- Namespace key codec, decoding direction: `getMetricNamespace` in
`control/metrics.go` is `strings.Split(key, ".")`.  `splitDot` is Go's
`strings.Split` with separator `"."`; on the empty string it yields `[""]`,
exactly as Go does. -/
def splitDot : List Char → List (List Char)
  | [] => [[]]
  | c :: rest =>
    if c = '.' then [] :: splitDot rest
    else
      match splitDot rest with
      | [] => [[c]]
      | seg :: segs => (c :: seg) :: segs

/-- Go `getMetricKey(metric []string) string`. -/
def getMetricKey (metric : List (List Char)) : List Char :=
  joinDot metric

/-- Go `getMetricNamespace(key string) []string`. -/
def getMetricNamespace (key : List Char) : List (List Char) :=
  splitDot key

/-- Helper for the wildcard matcher: `anyTail f s` is true when `f` holds of
some suffix of `s` (including `s` itself and the empty suffix).  This is how
a regular-expression `.*` consumes an arbitrary prefix of the remaining
input. -/
def anyTail (f : List Char → Bool) : List Char → Bool
  | [] => f []
  | c :: rest => f (c :: rest) || anyTail f rest

/-- Matcher for the anchored regular expression built by
`addItemToMatchingMap` in `control/metrics.go`: the query key `wkey` has
every `"."` escaped to `"[.]"` (a literal period) and every `"*"` replaced
by `".*"` (any characters), and the result is wrapped in `"^...$"`, so the
whole candidate key must match.  `reMatch wkey key` decides that anchored
match: `'*'` matches any sequence of characters and every other character of
`wkey` matches itself.  This is faithful for query keys built from literal
characters, `'.'` and `'*'`; other regular-expression metacharacters (the
tuple/alternation syntax) are outside the modelled input space. -/
def reMatch : List Char → List Char → Bool
  | [], s => s.isEmpty
  | c :: p, s =>
    if c = '*' then anyTail (reMatch p) s
    else
      match s with
      | [] => false
      | x :: s2 => decide (c = x) && reMatch p s2

/-- Characters that the Go `regexp` package treats specially.  `reMatch` is
a faithful model of the compiled query only when the query key contains none
of these (the code escapes `'.'` itself, and `'*'` is the wildcard). -/
def regexMetaChars : List Char :=
  ['(', ')', '[', ']', Char.ofNat 123, Char.ofNat 125, '|', '+', '?', '^',
   '$', Char.ofNat 92]

/-- Modelled from the spec: `loadedPlugin` (plugin management) is outside the
reviewed sources.  Only the parts the catalog reads are modelled: its
`Version()`, an identity used by `DeleteByPlugin`, and whether its
`ConfigPolicy` is nil. -/
structure loadedPlugin where
  version : Int
  pluginId : Nat
  configPolicy : Option Unit
deriving DecidableEq

/-- Metric entry `metricType` from `control/metrics.go`.  The Go field
`namespace` is a Lean keyword and is rendered `nspace`; opaque payload
fields that no claim reads (timestamps, tags, labels, config, policy, data,
source) are omitted.  `plugin` is the Go `Plugin *loadedPlugin` pointer,
`none` standing for nil. -/
structure metricType where
  plugin : Option loadedPlugin
  nspace : List (List Char)
  version : Int
  subscriptions : Int
deriving DecidableEq

/-- Go `(m *metricType) Version()`: the explicit version when positive,
otherwise the owning plugin's version, or -1 when the plugin pointer is
nil. -/
def metricType.Version (m : metricType) : Int :=
  if m.version > 0 then m.version
  else
    match m.plugin with
    | none => -1
    | some p => p.version

/-- Error returned by `Unsubscribe` on a zero count
(`errNegativeSubCount`). -/
inductive SubError
  | negativeSubCount
deriving DecidableEq

/-- Go `(m *metricType) Subscribe()`: unconditional increment. -/
def metricType.Subscribe (m : metricType) : metricType :=
  { m with subscriptions := m.subscriptions + 1 }

/-- Go `(m *metricType) Unsubscribe()`: on a zero count return
`errNegativeSubCount` and leave the count alone, otherwise decrement. -/
def metricType.Unsubscribe (m : metricType) : Option SubError × metricType :=
  if m.subscriptions = 0 then (some SubError.negativeSubCount, m)
  else (none, { m with subscriptions := m.subscriptions - 1 })

/-- Modelled from the spec: the Trie Store (`MTTrie`, file `mttrie.go`) is
not among the reviewed sources.  Per spec section 4.2 it owns all metric
entries; each namespace maps to the set of versions registered for it, each
version to one entry.  The tree shape is irrelevant to every operation's
observable behaviour, so the store is modelled extensionally as an
association list from namespace to a version-to-entry association list. -/
structure MTTrie where
  nodes : List (List (List Char) × List (Int × metricType))
deriving DecidableEq

/-- Modelled from the spec: store `m` under version `ver`, overwriting the
entry previously registered at that version, if any. -/
def updateVersionList (vs : List (Int × metricType)) (ver : Int)
    (m : metricType) : List (Int × metricType) :=
  match vs with
  | [] => [(ver, m)]
  | (v, e) :: rest =>
    if v = ver then (ver, m) :: rest
    else (v, e) :: updateVersionList rest ver m

/-- Modelled from the spec: insert along the path of the namespace, storing
the entry under its version at the terminal node (spec 4.2 `Add`). -/
def trieNodesAdd (nodes : List (List (List Char) × List (Int × metricType)))
    (ns : List (List Char)) (ver : Int) (m : metricType) :
    List (List (List Char) × List (Int × metricType)) :=
  match nodes with
  | [] => [(ns, [(ver, m)])]
  | (ns2, vs) :: rest =>
    if ns2 = ns then (ns2, updateVersionList vs ver m) :: rest
    else (ns2, vs) :: trieNodesAdd rest ns ver m

/-- Modelled from the spec: `MTTrie.Add` (spec 4.2). -/
def MTTrie.Add (t : MTTrie) (m : metricType) : MTTrie :=
  ⟨trieNodesAdd t.nodes m.nspace m.Version m⟩

/-- Lookup of the version list registered at an exact namespace. -/
def trieNodesGet (nodes : List (List (List Char) × List (Int × metricType)))
    (ns : List (List Char)) : Option (List (Int × metricType)) :=
  match nodes with
  | [] => none
  | (ns2, vs) :: rest =>
    if ns2 = ns then some vs else trieNodesGet rest ns

/-- Modelled from the spec: `MTTrie.Get` — exact-path lookup returning all
versions at the terminal node, or an error (here `none`) when the path does
not terminate in a populated node (spec 4.2 `Get`). -/
def MTTrie.Get (t : MTTrie) (ns : List (List Char)) :
    Option (List metricType) :=
  (trieNodesGet t.nodes ns).map (fun vs => vs.map Prod.snd)

/-- Modelled from the spec: `MTTrie.Remove` deletes all versions at the
exact terminal node (spec 4.2 `Remove`). -/
def MTTrie.Remove (t : MTTrie) (ns : List (List Char)) : MTTrie :=
  ⟨t.nodes.filter (fun nd => decide (nd.1 ≠ ns))⟩

/-- Does this entry's owning plugin match `lp`?  A nil plugin pointer
matches nothing. -/
def pluginMatch (m : metricType) (lp : loadedPlugin) : Bool :=
  match m.plugin with
  | none => false
  | some p => decide (p.pluginId = lp.pluginId)

/-- Modelled from the spec: `MTTrie.DeleteByPlugin` removes every entry
owned by the plugin anywhere in the tree and prunes now-empty nodes
(spec 4.2 `DeleteByPlugin`). -/
def MTTrie.DeleteByPlugin (t : MTTrie) (lp : loadedPlugin) : MTTrie :=
  ⟨(t.nodes.map
      (fun nd => (nd.1, nd.2.filter (fun ve => !(pluginMatch ve.2 lp))))).filter
    (fun nd => !(nd.2.isEmpty))⟩

/-- Modelled from the spec: `MTTrie.Fetch` returns all entries whose
namespace is at or below the given path, erring when there are none
(spec 4.2 `Fetch`). -/
def MTTrie.Fetch (t : MTTrie) (ns : List (List Char)) :
    Option (List metricType) :=
  let below := t.nodes.filter (fun nd => ns.isPrefixOf nd.1)
  let mts := (below.map (fun nd => nd.2.map Prod.snd)).flatten
  if mts.isEmpty then none else some mts

/-- Catalog state `metricCatalog` from `control/metrics.go`: the trie, the
cataloged key list `keys`, the wildcard matching map `mKeys` (a Go map,
modelled as an association list; the map's iteration order never affects the
results modelled here), and the iterator cursor `currentIter`.  The mutex is
not part of the data state; the locking discipline is modelled separately by
the lock-event traces below. -/
structure metricCatalog where
  tree : MTTrie
  keys : List (List Char)
  mKeys : List (List Char × List (List Char))
  currentIter : Int
deriving DecidableEq

/-- Go `newMetricCatalog()`. -/
def newMetricCatalog : metricCatalog :=
  { tree := ⟨[]⟩, keys := [], mKeys := [], currentIter := 0 }

/-- Go `appendIfMissing(keys, ns)`: return `keys` unchanged when `ns` is
already present, otherwise append it at the end. -/
def appendIfMissing (keys : List (List Char)) (ns : List Char) :
    List (List Char) :=
  if ns ∈ keys then keys else keys ++ [ns]

/-- Lookup in the matching map (Go `mc.mKeys[wkey]`, `none` when absent). -/
def mapLookup (m : List (List Char × List (List Char))) (k : List Char) :
    Option (List (List Char)) :=
  match m with
  | [] => none
  | (k2, v) :: rest => if k2 = k then some v else mapLookup rest k

/-- Insert-or-replace in the matching map (Go `mc.mKeys[wkey] = v`). -/
def mapInsert (m : List (List Char × List (List Char))) (k : List Char)
    (v : List (List Char)) : List (List Char × List (List Char)) :=
  match m with
  | [] => [(k, v)]
  | (k2, v2) :: rest =>
    if k2 = k then (k, v) :: rest else (k2, v2) :: mapInsert rest k v

/-- Deletion from the matching map (Go `delete(mc.mKeys, wkey)`). -/
def mapDelete (m : List (List Char × List (List Char))) (k : List Char) :
    List (List Char × List (List Char)) :=
  m.filter (fun p => decide (p.1 ≠ k))

/-- The matched-key computation inside `addItemToMatchingMap`: run the
anchored regular expression built from `wkey` over every cataloged key,
collecting matches with `appendIfMissing`. -/
def computeMatchedKeys (catKeys : List (List Char)) (wkey : List Char) :
    List (List Char) :=
  catKeys.foldl
    (fun acc key => if reMatch wkey key then appendIfMissing acc key else acc)
    []

/-- Go `(mc *metricCatalog) removeItemFromMatchingMap(wkey)`. -/
def removeItemFromMatchingMap (c : metricCatalog) (wkey : List Char) :
    metricCatalog :=
  { c with mKeys := mapDelete c.mKeys wkey }

/-- Go `(mc *metricCatalog) addItemToMatchingMap(wkey)`: recompute the keys
matched by `wkey`; when none match, drop `wkey` from the matching map,
otherwise store the matched keys under `wkey`. -/
def addItemToMatchingMap (c : metricCatalog) (wkey : List Char) :
    metricCatalog :=
  let matchedKeys := computeMatchedKeys c.keys wkey
  if matchedKeys.isEmpty then removeItemFromMatchingMap c wkey
  else { c with mKeys := mapInsert c.mKeys wkey matchedKeys }

/-- The per-entry body of Go `(mc *metricCatalog) removeMatchedKey(key)`:
strip `key` out of every cached match list and drop entries whose list
becomes empty.  The cached lists are built with `appendIfMissing` and so are
duplicate-free, hence removing the one occurrence (`List.erase`) is the Go
loop's behaviour. -/
def removeMatchedKeyAux (key : List Char)
    (entries : List (List Char × List (List Char))) :
    List (List Char × List (List Char)) :=
  match entries with
  | [] => []
  | (wk, mkeys) :: rest =>
    let mkeys2 := mkeys.erase key
    if mkeys2.isEmpty then removeMatchedKeyAux key rest
    else (wk, mkeys2) :: removeMatchedKeyAux key rest

/-- Go `(mc *metricCatalog) removeMatchedKey(key)`. -/
def removeMatchedKey (c : metricCatalog) (key : List Char) : metricCatalog :=
  { c with mKeys := removeMatchedKeyAux key c.mKeys }

/-- Go `(mc *metricCatalog) updateMatchingMap()`: re-derive every cached
query key against the current key list. -/
def updateMatchingMap (c : metricCatalog) : metricCatalog :=
  (c.mKeys.map Prod.fst).foldl (fun acc wk => addItemToMatchingMap acc wk) c

/-- Go `(mc *metricCatalog) Add(m)`: append the entry's canonical key to the
cataloged keys (without duplicating it) and insert the entry into the tree.
Note that `Add` does not touch the matching map `mKeys`. -/
def metricCatalog.Add (c : metricCatalog) (m : metricType) : metricCatalog :=
  { c with
    keys := appendIfMissing c.keys (getMetricKey m.nspace)
    tree := c.tree.Add m }

/-- Error values surfaced by catalog lookups (`errorMetricNotFound` with and
without a version, and the error propagated from `tree.Get`). -/
inductive CatalogError
  | treeNotFound (ns : List (List Char))
  | metricNotFound (ns : List (List Char))
  | metricNotFoundVer (ns : List (List Char)) (ver : Int)
deriving DecidableEq

/-- Result of a namespace query (`MatchQuery` / `GetQueriedNamespaces`). -/
inductive QueryResult
  | ok (nss : List (List (List Char)))
  | err (e : CatalogError)
deriving DecidableEq

/-- Go `convertKeysToNamespaces(keys)`. -/
def convertKeysToNamespaces (keys : List (List Char)) :
    List (List (List Char)) :=
  keys.foldl
    (fun nss key =>
      let ns := getMetricNamespace key
      if ns.length ≠ 0 then nss ++ [ns] else nss)
    []

/-- Go `(mc *metricCatalog) matchedNamespaces(wkey)`. -/
def metricCatalog.matchedNamespaces (c : metricCatalog) (wkey : List Char) :
    QueryResult :=
  let mkeys := (mapLookup c.mKeys wkey).getD []
  if mkeys.isEmpty then
    QueryResult.err (CatalogError.metricNotFound (getMetricNamespace wkey))
  else QueryResult.ok (convertKeysToNamespaces mkeys)

/-- Go `(mc *metricCatalog) GetQueriedNamespaces(ns)`: read-only lookup of an
already-cached query key. -/
def metricCatalog.GetQueriedNamespaces (c : metricCatalog)
    (ns : List (List Char)) : QueryResult :=
  c.matchedNamespaces (getMetricKey ns)

/-- Go `(mc *metricCatalog) MatchQuery(ns)`: refresh the matching-map entry
for the query key and return the matched namespaces. -/
def metricCatalog.MatchQuery (c : metricCatalog) (ns : List (List Char)) :
    QueryResult × metricCatalog :=
  let wkey := getMetricKey ns
  let c2 := addItemToMatchingMap c wkey
  (c2.matchedNamespaces wkey, c2)

/-- Go `(mc *metricCatalog) Remove(ns)`: delete the namespace from the tree
and strip its key from every cached match list.  Note that the cataloged key
list `keys` is left untouched. -/
def metricCatalog.Remove (c : metricCatalog) (ns : List (List Char)) :
    metricCatalog :=
  removeMatchedKey { c with tree := c.tree.Remove ns } (getMetricKey ns)

/-- Go `(mc *metricCatalog) RmUnloadedPluginMetrics(lp)`: bulk-delete the
plugin's entries from the tree, then re-derive the matching map.  Note that
the cataloged key list `keys` is left untouched, so the re-derivation runs
against a key list that may still contain keys of just-deleted entries. -/
def metricCatalog.RmUnloadedPluginMetrics (c : metricCatalog)
    (lp : loadedPlugin) : metricCatalog :=
  updateMatchingMap { c with tree := c.tree.DeleteByPlugin lp }

/-- Go `getLatest(c)`: start from `c[0]` and keep the entry with the
strictly larger `Version()`; `none` models the slice-index panic on an empty
list (its caller never passes one). -/
def getLatest (lst : List metricType) : Option metricType :=
  match lst with
  | [] => none
  | m0 :: _ =>
    some (lst.foldl (fun cur mt => if mt.Version > cur.Version then mt else cur) m0)

/-- Result of Go `getVersion(c, ver)`: the entry found, the
`errMetricNotFound` error, or the nil-pointer dereference that a nil
`m.Plugin` would cause. -/
inductive GetVerRes
  | found (m : metricType)
  | err
  | nilPanic
deriving DecidableEq

/-- Go `getVersion(c, ver)`: the first entry whose owning plugin's version
is exactly `ver` — the comparison reads `m.Plugin.Version()`, not the
entry's own version. -/
def getVersion (lst : List metricType) (ver : Int) : GetVerRes :=
  match lst with
  | [] => GetVerRes.err
  | m :: rest =>
    match m.plugin with
    | none => GetVerRes.nilPanic
    | some p =>
      if p.version = ver then GetVerRes.found m else getVersion rest ver

/-- Result of Go `(mc *metricCatalog) getVersions(ns)`. -/
inductive VersionsRes
  | ok (mts : List metricType)
  | err (e : CatalogError)
deriving DecidableEq

/-- Go `(mc *metricCatalog) getVersions(ns)`: propagate the tree error, and
turn an empty version list into `errorMetricNotFound`. -/
def metricCatalog.getVersions (c : metricCatalog) (ns : List (List Char)) :
    VersionsRes :=
  match c.tree.Get ns with
  | none => VersionsRes.err (CatalogError.treeNotFound ns)
  | some mts =>
    if mts.isEmpty then VersionsRes.err (CatalogError.metricNotFound ns)
    else VersionsRes.ok mts

/-- Result of Go `(mc *metricCatalog) get(ns, ver)`. -/
inductive MCGetRes
  | found (m : metricType)
  | err (e : CatalogError)
  | nilPanic
deriving DecidableEq

/-- Go `(mc *metricCatalog) get(ns, ver)`: resolve the version list, then
either exact (plugin-)version lookup for `ver > 0` or the latest entry for
`ver <= 0`. -/
def metricCatalog.get (c : metricCatalog) (ns : List (List Char)) (ver : Int) :
    MCGetRes :=
  match c.getVersions ns with
  | VersionsRes.err e => MCGetRes.err e
  | VersionsRes.ok mts =>
    if ver > 0 then
      match getVersion mts ver with
      | GetVerRes.found m => MCGetRes.found m
      | GetVerRes.err => MCGetRes.err (CatalogError.metricNotFoundVer ns ver)
      | GetVerRes.nilPanic => MCGetRes.nilPanic
    else
      match getLatest mts with
      | some m => MCGetRes.found m
      | none => MCGetRes.nilPanic

/-- Go `(mc *metricCatalog) Get(ns, version)` (the locked public wrapper of
`get`; the lock trace is modelled separately). -/
def metricCatalog.Get (c : metricCatalog) (ns : List (List Char)) (ver : Int) :
    MCGetRes :=
  c.get ns ver

/-- Go `(mc *metricCatalog) GetVersions(ns)` public wrapper. -/
def metricCatalog.GetVersions (c : metricCatalog) (ns : List (List Char)) :
    VersionsRes :=
  c.getVersions ns

/-- Go `(mc *metricCatalog) Fetch(ns)` public wrapper around `tree.Fetch`. -/
def metricCatalog.Fetch (c : metricCatalog) (ns : List (List Char)) :
    Option (List metricType) :=
  c.tree.Fetch ns

/-- In Go, `Subscribe`/`Unsubscribe` mutate the entry through the pointer
returned by `get`; in this value-level model the located entry is updated in
place inside the tree. -/
def trieUpdateEntry (t : MTTrie) (target : metricType)
    (f : metricType → metricType) : MTTrie :=
  ⟨t.nodes.map
    (fun nd =>
      (nd.1, nd.2.map (fun ve => if ve.2 = target then (ve.1, f ve.2) else ve)))⟩

/-- Result of the catalog-level subscription operations. -/
inductive OpRes
  | ok (c : metricCatalog)
  | errCatalog (e : CatalogError)
  | errSub (e : SubError)
  | nilPanic
deriving DecidableEq

/-- Go `(mc *metricCatalog) Subscribe(ns, version)`: resolve one entry via
`get`, then increment its subscription count. -/
def metricCatalog.SubscribeNs (c : metricCatalog) (ns : List (List Char))
    (ver : Int) : OpRes :=
  match c.get ns ver with
  | MCGetRes.err e => OpRes.errCatalog e
  | MCGetRes.nilPanic => OpRes.nilPanic
  | MCGetRes.found m =>
    OpRes.ok { c with tree := trieUpdateEntry c.tree m metricType.Subscribe }

/-- Go `(mc *metricCatalog) Unsubscribe(ns, version)`: resolve one entry via
`get`, then decrement its count, failing on a zero count. -/
def metricCatalog.UnsubscribeNs (c : metricCatalog) (ns : List (List Char))
    (ver : Int) : OpRes :=
  match c.get ns ver with
  | MCGetRes.err e => OpRes.errCatalog e
  | MCGetRes.nilPanic => OpRes.nilPanic
  | MCGetRes.found m =>
    match m.Unsubscribe with
    | (some e, _) => OpRes.errSub e
    | (none, m2) =>
      OpRes.ok { c with tree := trieUpdateEntry c.tree m (fun _ => m2) }

/-- Go `(mc *metricCatalog) Keys()`: returns the key list directly. -/
def metricCatalog.Keys (c : metricCatalog) : List (List Char) :=
  c.keys

/-- Go `(mc *metricCatalog) Item()`: reads `mc.keys[mc.currentIter-1]` — an
out-of-range index (in particular -1 when the cursor is 0) is a Go runtime
panic, modelled as `none` — then splits the key and resolves it through the
tree, ignoring the tree error. -/
def metricCatalog.Item (c : metricCatalog) :
    Option (List Char × List metricType) :=
  let i : Int := c.currentIter - 1
  if i < 0 then none
  else
    match c.keys[i.toNat]? with
    | none => none
    | some key => some (key, (c.tree.Get (getMetricNamespace key)).getD [])

/-- Go `(mc *metricCatalog) Next()`: advance the cursor; past the end, reset
it to 0 and report false. -/
def metricCatalog.Next (c : metricCatalog) : Bool × metricCatalog :=
  let c2 := { c with currentIter := c.currentIter + 1 }
  if c2.currentIter > (c.keys.length : Int) then
    (false, { c2 with currentIter := 0 })
  else (true, c2)

/-- The characters rejected in registered metric namespaces
(`notAllowedChars` in `control/metrics.go`), flattened from the Go map's
groups: brackets, spaces, punctuations, slashes, carets, quotations.  The
map's iteration order only affects which group is reported first, not
whether validation fails. -/
def notAllowedCharsList : List Char :=
  ['(', ')', '[', ']', Char.ofNat 123, Char.ofNat 125] ++
  [' '] ++
  ['.', ',', ';', '?', '!'] ++
  ['|', Char.ofNat 92, '/'] ++
  ['^'] ++
  [Char.ofNat 34, Char.ofNat 96, Char.ofNat 39]

/-- The two rejection reasons of `validateMetricNamespace`
(`errorMetricContainsNotAllowedChars` and `errorMetricEndsWithAsterisk`);
the spec calls both `InvalidNamespace`. -/
inductive NsError
  | containsNotAllowedChars
  | endsWithAsterisk
deriving DecidableEq

/-- Go `validateMetricNamespace(ns)`: join the segments with the empty
separator, reject when the joined name contains any disallowed character,
then reject when it ends with an asterisk. -/
def validateMetricNamespace (ns : List (List Char)) : Option NsError :=
  let name := ns.flatten
  if notAllowedCharsList.any (fun ch => name.contains ch) then
    some NsError.containsNotAllowedChars
  else if name.getLast? = some '*' then some NsError.endsWithAsterisk
  else none

/-- Result of Go `(mc *metricCatalog) AddLoadedMetricType(lp, mt)`. -/
inductive AddLoadedRes
  | ok (c : metricCatalog)
  | invalidNamespace (e : NsError)
  | missingConfigPolicy
deriving DecidableEq

/-- Go `(mc *metricCatalog) AddLoadedMetricType(lp, mt)`: validate the
namespace, require a config policy on the plugin, then build the entry and
add it.  The metric definition `mt` is passed as its namespace and version
(its remaining accessors feed only the omitted payload fields). -/
def metricCatalog.AddLoadedMetricType (c : metricCatalog) (lp : loadedPlugin)
    (mtNs : List (List Char)) (mtVer : Int) : AddLoadedRes :=
  match validateMetricNamespace mtNs with
  | some e => AddLoadedRes.invalidNamespace e
  | none =>
    match lp.configPolicy with
    | none => AddLoadedRes.missingConfigPolicy
    | some _ =>
      AddLoadedRes.ok
        (c.Add
          { plugin := some lp, nspace := mtNs, version := mtVer,
            subscriptions := 0 })

/-- Lock events of the catalog's single mutex. -/
inductive LockEv
  | acquire
  | release
deriving DecidableEq

/-- A lock trace showing the mutex held for the operation's full duration:
acquired on entry and released exactly once at exit. -/
def locksForFullDuration (tr : List LockEv) : Bool :=
  decide (tr = [LockEv.acquire, LockEv.release])

/-- Lock trace transcribed from `mc.mutex.Lock()` plus
`defer mc.mutex.Unlock()`: the deferred unlock runs on every return path,
error returns included, so the trace is the same on all paths. -/
def lockedTrace : List LockEv :=
  [LockEv.acquire, LockEv.release]

/-- Go `Get` with its lock events. -/
def metricCatalog.GetWithLock (c : metricCatalog) (ns : List (List Char))
    (ver : Int) : MCGetRes × List LockEv :=
  (c.get ns ver, lockedTrace)

/-- Go `GetVersions` with its lock events. -/
def metricCatalog.GetVersionsWithLock (c : metricCatalog)
    (ns : List (List Char)) : VersionsRes × List LockEv :=
  (c.getVersions ns, lockedTrace)

/-- Go `Fetch` with its lock events. -/
def metricCatalog.FetchWithLock (c : metricCatalog) (ns : List (List Char)) :
    Option (List metricType) × List LockEv :=
  (c.Fetch ns, lockedTrace)

/-- Go `Add` with its lock events. -/
def metricCatalog.AddWithLock (c : metricCatalog) (m : metricType) :
    metricCatalog × List LockEv :=
  (c.Add m, lockedTrace)

/-- Go `Remove` with its lock events. -/
def metricCatalog.RemoveWithLock (c : metricCatalog) (ns : List (List Char)) :
    metricCatalog × List LockEv :=
  (c.Remove ns, lockedTrace)

/-- Go `RmUnloadedPluginMetrics` with its lock events. -/
def metricCatalog.RmUnloadedPluginMetricsWithLock (c : metricCatalog)
    (lp : loadedPlugin) : metricCatalog × List LockEv :=
  (c.RmUnloadedPluginMetrics lp, lockedTrace)

/-- Go `Subscribe` with its lock events. -/
def metricCatalog.SubscribeWithLock (c : metricCatalog)
    (ns : List (List Char)) (ver : Int) : OpRes × List LockEv :=
  (c.SubscribeNs ns ver, lockedTrace)

/-- Go `Unsubscribe` with its lock events. -/
def metricCatalog.UnsubscribeWithLock (c : metricCatalog)
    (ns : List (List Char)) (ver : Int) : OpRes × List LockEv :=
  (c.UnsubscribeNs ns ver, lockedTrace)

/-- Go `MatchQuery` with its lock events. -/
def metricCatalog.MatchQueryWithLock (c : metricCatalog)
    (ns : List (List Char)) : (QueryResult × metricCatalog) × List LockEv :=
  (c.MatchQuery ns, lockedTrace)

/-- Go `GetQueriedNamespaces` with its lock events. -/
def metricCatalog.GetQueriedNamespacesWithLock (c : metricCatalog)
    (ns : List (List Char)) : QueryResult × List LockEv :=
  (c.GetQueriedNamespaces ns, lockedTrace)

/-- Go `Keys` with its lock events: the source takes no lock. -/
def metricCatalog.KeysWithLock (c : metricCatalog) :
    List (List Char) × List LockEv :=
  (c.Keys, [])

/-- Go `Item` with its lock events: the source takes no lock. -/
def metricCatalog.ItemWithLock (c : metricCatalog) :
    Option (List Char × List metricType) × List LockEv :=
  (c.Item, [])

/-- Go `Next` with its lock events: the source takes no lock. -/
def metricCatalog.NextWithLock (c : metricCatalog) :
    (Bool × metricCatalog) × List LockEv :=
  (c.Next, [])

/-- One step of the subscription state machine of a single entry. -/
inductive SubOp
  | sub
  | unsub
deriving DecidableEq

/-- Apply one Subscribe/Unsubscribe call to an entry (an `unsub` refused on
a zero count leaves the entry unchanged, as the code does). -/
def applySubOp (m : metricType) : SubOp → metricType
  | SubOp.sub => m.Subscribe
  | SubOp.unsub => m.Unsubscribe.2

/-- Apply a finite sequence of Subscribe/Unsubscribe calls to an entry. -/
def applySubOps (m : metricType) (ops : List SubOp) : metricType :=
  ops.foldl applySubOp m

/-- Version-slot lookup inside one trie node, used to state idempotence of
`Add` per (namespace, version). -/
def verLookup (vs : List (Int × metricType)) (ver : Int) : Option metricType :=
  match vs with
  | [] => none
  | (v, e) :: rest => if v = ver then some e else verLookup rest ver

/-- Number of entries registered at exactly (namespace, version). -/
def countVerEntries (t : MTTrie) (ns : List (List Char)) (ver : Int) : Nat :=
  match trieNodesGet t.nodes ns with
  | none => 0
  | some vs => (vs.filter (fun ve => decide (ve.1 = ver))).length

/-- A namespace is currently registered when some trie node for it holds at
least one version. -/
def registeredAt (t : MTTrie) (ns : List (List Char)) : Prop :=
  ∃ nd ∈ t.nodes, nd.1 = ns ∧ nd.2 ≠ []

/-- The key list covers the tree: every registered namespace's canonical key
is cataloged. -/
def keysCoverTree (c : metricCatalog) : Prop :=
  ∀ ns, registeredAt c.tree ns → getMetricKey ns ∈ c.keys

/-- No cached query key maps to an empty match list. -/
def noEmptyCache (c : metricCatalog) : Prop :=
  ∀ p ∈ c.mKeys, p.2 ≠ []

/-- Concrete plugin used by the executable scenarios. -/
def lpA : loadedPlugin :=
  { version := 1, pluginId := 1, configPolicy := some () }

/-- Concrete entry /a/b at version 1. -/
def mtAB : metricType :=
  { plugin := some lpA, nspace := [['a'], ['b']], version := 1,
    subscriptions := 0 }

/-- Concrete entry /a/c at version 1. -/
def mtAC : metricType :=
  { plugin := some lpA, nspace := [['a'], ['c']], version := 1,
    subscriptions := 0 }

/-- Concrete entry /a/b/c at version 1. -/
def mtABC : metricType :=
  { plugin := some lpA, nspace := [['a'], ['b'], ['c']], version := 1,
    subscriptions := 0 }

/-- Concrete entry /a with explicit version 5 owned by a version-1 plugin. -/
def mtA5 : metricType :=
  { plugin := some lpA, nspace := [['a']], version := 5, subscriptions := 0 }

/-- Second plugin identity, same version, used to witness overwriting. -/
def lpB : loadedPlugin :=
  { version := 1, pluginId := 2, configPolicy := some () }

/-- Concrete entry /a at explicit version 5 owned by the second plugin. -/
def mtA5b : metricType :=
  { plugin := some lpB, nspace := [['a']], version := 5, subscriptions := 0 }

/-- Catalog holding /a/b, with the query a.* cached, then /a/c added:
the state exercised by the cache-staleness counterexample. -/
def cexAddState : metricCatalog :=
  (((newMetricCatalog.Add mtAB).MatchQuery [['a'], ['*']]).2).Add mtAC

/-- Catalog holding /a/b/c only, used by the wildcard-segment and iterator
scenarios. -/
def catABC : metricCatalog :=
  newMetricCatalog.Add mtABC

/-- Catalog holding /a/b with the query a.* cached, after the owning plugin
was unloaded: the state exercised by the stale-rederivation
counterexample. -/
def cexRmState : metricCatalog :=
  (((newMetricCatalog.Add mtAB).MatchQuery
      [['a'], ['*']]).2).RmUnloadedPluginMetrics lpA

/-- Catalog after adding /a/b and then removing it: the state exercised by
the stale-key-list counterexample. -/
def cexRemoveState : metricCatalog :=
  (newMetricCatalog.Add mtAB).Remove [['a'], ['b']]

/-! ## Lemmas about the namespace key codec -/

theorem splitDot_no_dot : ∀ s : List Char, '.' ∉ s → splitDot s = [s] := by
  intro s
  induction s with
  | nil => intro _; rfl
  | cons c rest ih =>
    intro h
    have hc : c ≠ '.' := fun hc => h (hc ▸ List.mem_cons_self c rest)
    have hrest : '.' ∉ rest := fun hr => h (List.mem_cons_of_mem c hr)
    simp only [splitDot, if_neg hc, ih hrest]

theorem splitDot_append (s t : List Char) (h : '.' ∉ s) :
    splitDot (s ++ '.' :: t) = s :: splitDot t := by
  induction s with
  | nil => simp [splitDot]
  | cons c s2 ih =>
    have hc : c ≠ '.' := fun hc => h (hc ▸ List.mem_cons_self c s2)
    have hs2 : '.' ∉ s2 := fun hr => h (List.mem_cons_of_mem c hr)
    simp only [List.cons_append, splitDot, List.append_eq, if_neg hc, ih hs2]

/-- The round-trip of claim C7 fails at the empty namespace (Go's
`strings.Split("", ".")` is `[""]`, not the empty slice) and at a segment
containing the separator. -/
theorem key_roundtrip_counterexample :
    getMetricNamespace (getMetricKey ([] : List (List Char))) = [[]]
    ∧ ([[]] : List (List Char)) ≠ []
    ∧ getMetricNamespace (getMetricKey [['a', '.', 'b']]) = [['a'], ['b']]
    ∧ ([['a'], ['b']] : List (List Char)) ≠ [['a', '.', 'b']] := by
  decide

/-- Claim C7, amended: for every nonempty namespace whose segments do not
contain the separator character, encoding with `getMetricKey` and decoding
with `getMetricNamespace` reproduces the namespace exactly. -/
theorem key_roundtrip :
    ∀ ns : List (List Char), ns ≠ [] → (∀ s ∈ ns, '.' ∉ s) →
      getMetricNamespace (getMetricKey ns) = ns := by
  intro ns
  induction ns with
  | nil => intro h _; exact absurd rfl h
  | cons s rest ih =>
    intro _ hsep
    have hs : '.' ∉ s := hsep s (List.mem_cons_self s rest)
    cases rest with
    | nil =>
      show splitDot (joinDot [s]) = [s]
      simpa [joinDot] using splitDot_no_dot s hs
    | cons s2 rest2 =>
      have hrest : ∀ x ∈ s2 :: rest2, '.' ∉ x := fun x hx =>
        hsep x (List.mem_cons_of_mem s hx)
      have ihr := ih (by simp) hrest
      show splitDot (joinDot (s :: s2 :: rest2)) = s :: s2 :: rest2
      rw [show joinDot (s :: s2 :: rest2) = s ++ '.' :: joinDot (s2 :: rest2)
            from rfl,
          splitDot_append _ _ hs]
      exact congrArg (s :: ·) ihr

/-- Witness for `key_roundtrip` at the namespace /intel/mock. -/
theorem key_roundtrip_witness :
    getMetricNamespace (getMetricKey ["intel".toList, "mock".toList]) =
      ["intel".toList, "mock".toList] :=
  key_roundtrip ["intel".toList, "mock".toList] (by decide) (by decide)

/-! ## Lemmas about the wildcard matcher -/

/-- Claim C6 counterexample: with /a/b/c registered, `MatchQuery` on the
two-segment pattern a/* returns the three-segment namespace /a/b/c — the
translated `.*` matches across the separator, so a matched key does not have
the same number of segments as the query. -/
theorem wildcard_crosses_segments :
    (catABC.MatchQuery [['a'], ['*']]).1 = QueryResult.ok [[['a'], ['b'], ['c']]]
    ∧ reMatch (getMetricKey [['a'], ['*']]) (getMetricKey [['a'], ['b'], ['c']]) = true
    ∧ ([['a'], ['*']] : List (List Char)).length = 2
    ∧ ([['a'], ['b'], ['c']] : List (List Char)).length = 3 := by
  decide

/-- Claim C6, amended: the translated expression is anchored at both ends —
a query key without any `'*'` (and without regular-expression
metacharacters, which are outside the modelled grammar) matches exactly the
identical catalog key — but each `'*'` becomes `.*`, which also matches the
segment separator, so a matched key need not have the same number of
segments as the query. -/
theorem wildcard_regex_anchoring :
    ∀ wkey key : List Char, (∀ ch ∈ wkey, ch ∉ regexMetaChars) →
      '*' ∉ wkey → (reMatch wkey key = true ↔ key = wkey) := by
  intro wkey
  induction wkey with
  | nil =>
    intro key _ _
    simp [reMatch, List.isEmpty_iff]
  | cons c p ih =>
    intro key _hmeta hstar
    have hc : c ≠ '*' := fun hc => hstar (hc ▸ List.mem_cons_self c p)
    have hp : '*' ∉ p := fun hm => hstar (List.mem_cons_of_mem c hm)
    have hpm : ∀ ch ∈ p, ch ∉ regexMetaChars := fun ch hch =>
      _hmeta ch (List.mem_cons_of_mem c hch)
    cases key with
    | nil => simp [reMatch, if_neg hc]
    | cons x s2 =>
      simp only [reMatch, if_neg hc, Bool.and_eq_true, decide_eq_true_eq,
        List.cons.injEq]
      constructor
      · rintro ⟨h1, h2⟩
        exact ⟨h1.symm, (ih s2 hpm hp).mp h2⟩
      · rintro ⟨h1, h2⟩
        exact ⟨h1.symm, (ih s2 hpm hp).mpr h2⟩

/-- Witness for `wildcard_regex_anchoring`: the literal query a.b matches
the key a.b and nothing shorter or longer. -/
theorem wildcard_regex_anchoring_witness :
    (reMatch "a.b".toList "a.b".toList = true ↔ "a.b".toList = "a.b".toList)
    ∧ (reMatch "a.b".toList "a.b.c".toList = true ↔ "a.b.c".toList = "a.b".toList) :=
  ⟨wildcard_regex_anchoring "a.b".toList "a.b".toList (by decide) (by decide),
   wildcard_regex_anchoring "a.b".toList "a.b.c".toList (by decide) (by decide)⟩

/-! ## Subscription counting (claim C4) -/

/-- Claim C4: across any finite sequence of Subscribe/Unsubscribe calls the
count stays non-negative; Subscribe increments by one; Unsubscribe on a zero
count returns `NegativeSubscriptionCount` and leaves the count at zero, and
otherwise decrements by one with no error. -/
theorem subscription_count_never_negative :
    (∀ (m : metricType) (ops : List SubOp),
      0 ≤ m.subscriptions → 0 ≤ (applySubOps m ops).subscriptions)
    ∧ (∀ m : metricType, m.Subscribe.subscriptions = m.subscriptions + 1)
    ∧ (∀ m : metricType, m.subscriptions = 0 →
        m.Unsubscribe = (some SubError.negativeSubCount, m))
    ∧ (∀ m : metricType, m.subscriptions ≠ 0 →
        m.Unsubscribe = (none, { m with subscriptions := m.subscriptions - 1 })) := by
  refine ⟨?_, fun m => rfl, fun m h => by simp [metricType.Unsubscribe, h],
    fun m h => by simp [metricType.Unsubscribe, h]⟩
  intro m ops
  induction ops generalizing m with
  | nil => intro h; exact h
  | cons op rest ih =>
    intro h
    have hstep : 0 ≤ (applySubOp m op).subscriptions := by
      cases op with
      | sub => simp [applySubOp, metricType.Subscribe]; omega
      | unsub =>
        by_cases h0 : m.subscriptions = 0
        · simp [applySubOp, metricType.Unsubscribe, h0]
        · simp [applySubOp, metricType.Unsubscribe, h0]; omega
    exact ih (applySubOp m op) hstep

/-- Witness for `subscription_count_never_negative`: two subscribes and
three unsubscribes starting from a fresh entry leave the count at zero. -/
theorem subscription_count_never_negative_witness :
    0 ≤ (applySubOps mtAB
      [SubOp.sub, SubOp.sub, SubOp.unsub, SubOp.unsub, SubOp.unsub]).subscriptions
    ∧ mtAB.Subscribe.subscriptions = mtAB.subscriptions + 1
    ∧ mtAB.Unsubscribe = (some SubError.negativeSubCount, mtAB) :=
  ⟨subscription_count_never_negative.1 mtAB
      [SubOp.sub, SubOp.sub, SubOp.unsub, SubOp.unsub, SubOp.unsub] (by decide),
   subscription_count_never_negative.2.1 mtAB,
   subscription_count_never_negative.2.2.1 mtAB (by decide)⟩

/-! ## Iterator partiality (claim C10) -/

/-- Claim C10: a fresh catalog's cursor is zero and a false `Next` resets it
to zero; `Item` at cursor zero reads index -1 of the key list, a Go runtime
panic (modelled `none`), so `Item` is only well-defined immediately after a
`Next` that returned true. -/
theorem iterator_item_partiality :
    newMetricCatalog.currentIter = 0
    ∧ (∀ c : metricCatalog, (c.Next).1 = false → (c.Next).2.currentIter = 0)
    ∧ (∀ c : metricCatalog, c.currentIter = 0 → c.Item = none)
    ∧ (∀ c : metricCatalog, 0 ≤ c.currentIter → (c.Next).1 = true →
        (c.Next).2.Item ≠ none) := by
  refine ⟨rfl, ?_, ?_, ?_⟩
  · intro c h
    by_cases hgt : c.currentIter + 1 > (c.keys.length : Int)
    · simp [metricCatalog.Next, hgt]
    · simp [metricCatalog.Next, hgt] at h
  · intro c h
    simp [metricCatalog.Item, h]
  · intro c hnn htrue
    by_cases hgt : c.currentIter + 1 > (c.keys.length : Int)
    · simp [metricCatalog.Next, hgt] at htrue
    · have hred : (c.Next).2 = { c with currentIter := c.currentIter + 1 } := by
        simp [metricCatalog.Next, hgt]
      rw [hred]
      simp only [metricCatalog.Item]
      have hi : ¬(c.currentIter + 1 - 1 < 0) := by omega
      rw [if_neg hi]
      have hnat : (c.currentIter + 1 - 1).toNat < c.keys.length := by omega
      rw [List.getElem?_eq_getElem hnat]
      simp

/-- Witness for `iterator_item_partiality`: on the catalog holding /a/b/c,
`Item` on the fresh state is `none`, and after a true `Next` it is
defined. -/
theorem iterator_item_partiality_witness :
    catABC.Item = none ∧ (catABC.Next).1 = true ∧ (catABC.Next).2.Item ≠ none :=
  ⟨iterator_item_partiality.2.2.1 catABC (by decide), by decide,
   iterator_item_partiality.2.2.2 catABC (by decide) (by decide)⟩

/-! ## Lock discipline (claim C9) -/

/-- Claim C9 counterexample: `Keys`, `Item` and `Next` run on the shared
state with an empty lock trace — they do not acquire the catalog mutex. -/
theorem keys_op_takes_no_lock :
    locksForFullDuration (metricCatalog.KeysWithLock newMetricCatalog).2 = false
    ∧ (metricCatalog.KeysWithLock newMetricCatalog).1 = newMetricCatalog.keys
    ∧ locksForFullDuration (metricCatalog.ItemWithLock newMetricCatalog).2 = false
    ∧ locksForFullDuration (metricCatalog.NextWithLock newMetricCatalog).2 = false := by
  decide

/-- Claim C9, amended: every public catalog operation that reads or mutates
the trie, the key list or the match cache acquires the single mutex on entry
and releases it on every exit path — except `Keys`, `Item` and `Next`, which
access the shared state with no locking at all. -/
theorem lock_discipline :
    (∀ (c : metricCatalog) (ns : List (List Char)) (ver : Int),
      locksForFullDuration (c.GetWithLock ns ver).2 = true)
    ∧ (∀ (c : metricCatalog) (ns : List (List Char)),
      locksForFullDuration (c.GetVersionsWithLock ns).2 = true)
    ∧ (∀ (c : metricCatalog) (ns : List (List Char)),
      locksForFullDuration (c.FetchWithLock ns).2 = true)
    ∧ (∀ (c : metricCatalog) (m : metricType),
      locksForFullDuration (c.AddWithLock m).2 = true)
    ∧ (∀ (c : metricCatalog) (ns : List (List Char)),
      locksForFullDuration (c.RemoveWithLock ns).2 = true)
    ∧ (∀ (c : metricCatalog) (lp : loadedPlugin),
      locksForFullDuration (c.RmUnloadedPluginMetricsWithLock lp).2 = true)
    ∧ (∀ (c : metricCatalog) (ns : List (List Char)) (ver : Int),
      locksForFullDuration (c.SubscribeWithLock ns ver).2 = true)
    ∧ (∀ (c : metricCatalog) (ns : List (List Char)) (ver : Int),
      locksForFullDuration (c.UnsubscribeWithLock ns ver).2 = true)
    ∧ (∀ (c : metricCatalog) (ns : List (List Char)),
      locksForFullDuration (c.MatchQueryWithLock ns).2 = true)
    ∧ (∀ (c : metricCatalog) (ns : List (List Char)),
      locksForFullDuration (c.GetQueriedNamespacesWithLock ns).2 = true)
    ∧ (∀ c : metricCatalog,
      (c.KeysWithLock).2 = [] ∧ (c.ItemWithLock).2 = [] ∧ (c.NextWithLock).2 = []) :=
  ⟨fun _ _ _ => rfl, fun _ _ => rfl, fun _ _ => rfl, fun _ _ => rfl,
   fun _ _ => rfl, fun _ _ => rfl, fun _ _ _ => rfl, fun _ _ _ => rfl,
   fun _ _ => rfl, fun _ _ => rfl, fun _ => ⟨rfl, rfl, rfl⟩⟩

/-! ## Namespace validation (claim C5) -/

/-- Claim C5: registration validation rejects exactly when the joined
namespace contains one of the disallowed characters (brackets, space, the
punctuation marks period comma semicolon question exclamation, the slash
characters pipe backslash slash, caret, quote marks) or ends with an
asterisk; the two spec examples fail, a clean namespace passes, and
`AddLoadedMetricType` surfaces the validation error unchanged. -/
theorem namespace_validation_characterization :
    (∀ ns : List (List Char),
      (validateMetricNamespace ns).isSome = true ↔
        ((∃ ch ∈ ns.flatten, ch ∈ notAllowedCharsList)
          ∨ (ns.flatten).getLast? = some '*'))
    ∧ validateMetricNamespace ["intel".toList, "mock".toList, "foo*".toList] =
        some NsError.endsWithAsterisk
    ∧ validateMetricNamespace ["intel".toList, "mock (foo)".toList] =
        some NsError.containsNotAllowedChars
    ∧ validateMetricNamespace ["intel".toList, "mock".toList, "foo".toList] =
        none
    ∧ (∀ (c : metricCatalog) (lp : loadedPlugin) (ns : List (List Char))
        (ver : Int) (e : NsError),
        validateMetricNamespace ns = some e →
        c.AddLoadedMetricType lp ns ver = AddLoadedRes.invalidNamespace e) := by
  refine ⟨?_, by decide, by decide, by decide, ?_⟩
  · intro ns
    simp only [validateMetricNamespace]
    by_cases h1 :
        notAllowedCharsList.any (fun ch => (ns.flatten).contains ch) = true
    · rw [if_pos h1]
      simp only [Option.isSome_some, true_iff]
      left
      rcases List.any_eq_true.mp h1 with ⟨ch, hch, hc⟩
      exact ⟨ch, by simpa using hc, hch⟩
    · rw [if_neg h1]
      by_cases h2 : (ns.flatten).getLast? = some '*'
      · rw [if_pos h2]
        simp only [Option.isSome_some, true_iff]
        exact Or.inr h2
      · rw [if_neg h2]
        simp only [Option.isSome_none, Bool.false_eq_true, false_iff]
        intro hor
        rcases hor with hl | hr
        · rcases hl with ⟨ch, hin, hall⟩
          exact h1 (List.any_eq_true.mpr ⟨ch, hall, by simpa using hin⟩)
        · exact h2 hr
  · intro c lp ns ver e hv
    simp [metricCatalog.AddLoadedMetricType, hv]

/-- Witness for `namespace_validation_characterization`: the spec's
registration example /intel/mock/foo* is rejected by the add path. -/
theorem namespace_validation_witness :
    newMetricCatalog.AddLoadedMetricType lpA
        ["intel".toList, "mock".toList, "foo*".toList] 1 =
      AddLoadedRes.invalidNamespace NsError.endsWithAsterisk :=
  namespace_validation_characterization.2.2.2.2 newMetricCatalog lpA
    ["intel".toList, "mock".toList, "foo*".toList] 1
    NsError.endsWithAsterisk (by decide)

/-! ## Version resolution (claim C3) -/

theorem getVersion_found_spec :
    ∀ (lst : List metricType) (ver : Int) (m : metricType),
      getVersion lst ver = GetVerRes.found m →
      m ∈ lst ∧ ∃ p, m.plugin = some p ∧ p.version = ver := by
  intro lst
  induction lst with
  | nil => intro ver m h; exact absurd h (by simp [getVersion])
  | cons m0 rest ih =>
    intro ver m h
    cases hp : m0.plugin with
    | none => simp [getVersion, hp] at h
    | some p =>
      by_cases hv : p.version = ver
      · simp only [getVersion, hp, if_pos hv, GetVerRes.found.injEq] at h
        subst h
        exact ⟨List.mem_cons_self m0 rest, p, hp, hv⟩
      · simp only [getVersion, hp, if_neg hv] at h
        rcases ih ver m h with ⟨hmem, hex⟩
        exact ⟨List.mem_cons_of_mem m0 hmem, hex⟩

theorem getVersion_err_of_all :
    ∀ (lst : List metricType) (ver : Int),
      (∀ m ∈ lst, ∃ p, m.plugin = some p ∧ p.version ≠ ver) →
      getVersion lst ver = GetVerRes.err := by
  intro lst
  induction lst with
  | nil => intro ver _; rfl
  | cons m0 rest ih =>
    intro ver hall
    rcases hall m0 (List.mem_cons_self m0 rest) with ⟨p, hp, hv⟩
    simp only [getVersion, hp, if_neg hv]
    exact ih ver fun m hm => hall m (List.mem_cons_of_mem m0 hm)

theorem foldl_pick_mem :
    ∀ (l : List metricType) (cur : metricType),
      l.foldl (fun cur mt => if mt.Version > cur.Version then mt else cur) cur
          = cur
        ∨ l.foldl (fun cur mt => if mt.Version > cur.Version then mt else cur)
            cur ∈ l := by
  intro l
  induction l with
  | nil => intro cur; exact Or.inl rfl
  | cons x rest ih =>
    intro cur
    simp only [List.foldl_cons]
    by_cases hx : x.Version > cur.Version
    · rw [if_pos hx]
      rcases ih x with h | h
      · rw [h]
        exact Or.inr (List.mem_cons_self x rest)
      · exact Or.inr (List.mem_cons_of_mem x h)
    · rw [if_neg hx]
      rcases ih cur with h | h
      · exact Or.inl h
      · exact Or.inr (List.mem_cons_of_mem x h)

theorem foldl_pick_ge_init :
    ∀ (l : List metricType) (cur : metricType),
      cur.Version ≤
        (l.foldl (fun cur mt => if mt.Version > cur.Version then mt else cur)
          cur).Version := by
  intro l
  induction l with
  | nil => intro cur; exact le_refl _
  | cons x rest ih =>
    intro cur
    simp only [List.foldl_cons]
    by_cases hx : x.Version > cur.Version
    · rw [if_pos hx]
      exact le_trans (le_of_lt hx) (ih x)
    · rw [if_neg hx]
      exact ih cur

theorem foldl_pick_ge_mem :
    ∀ (l : List metricType) (cur x : metricType), x ∈ l →
      x.Version ≤
        (l.foldl (fun cur mt => if mt.Version > cur.Version then mt else cur)
          cur).Version := by
  intro l
  induction l with
  | nil => intro cur x hx; exact absurd hx (List.not_mem_nil x)
  | cons y rest ih =>
    intro cur x hx
    simp only [List.foldl_cons]
    rcases List.mem_cons.mp hx with heq | hmem
    · subst heq
      by_cases hy : x.Version > cur.Version
      · rw [if_pos hy]; exact foldl_pick_ge_init rest x
      · rw [if_neg hy]
        simp only [not_lt] at hy
        exact le_trans hy (foldl_pick_ge_init rest cur)
    · by_cases hy : y.Version > cur.Version
      · rw [if_pos hy]; exact ih y x hmem
      · rw [if_neg hy]; exact ih cur x hmem

theorem getLatest_spec :
    ∀ (lst : List metricType) (m : metricType),
      getLatest lst = some m →
      m ∈ lst ∧ ∀ x ∈ lst, x.Version ≤ m.Version := by
  intro lst m h
  cases lst with
  | nil => exact absurd h (by simp [getLatest])
  | cons m0 rest =>
    unfold getLatest at h
    simp only [Option.some.injEq] at h
    subst h
    constructor
    · rcases foldl_pick_mem (m0 :: rest) m0 with heq | hmem
      · rw [heq]; exact List.mem_cons_self m0 rest
      · exact hmem
    · intro x hx
      exact foldl_pick_ge_mem (m0 :: rest) m0 x hx

/-- Claim C3 counterexample: the entry /a carries explicit version 5 while
its owning plugin is at version 1; `get` with requested version 5 fails
`MetricNotFound` even though an entry registered at exactly version 5
exists, and `get` with requested version 1 returns that version-5 entry —
the exact-version branch compares the plugin's version, not the entry's. -/
theorem get_exact_version_mismatch :
    mtA5.Version = 5
    ∧ MTTrie.Get (newMetricCatalog.Add mtA5).tree [['a']] = some [mtA5]
    ∧ (newMetricCatalog.Add mtA5).get [['a']] 5 =
        MCGetRes.err (CatalogError.metricNotFoundVer [['a']] 5)
    ∧ (newMetricCatalog.Add mtA5).get [['a']] 1 = MCGetRes.found mtA5 := by
  decide

/-- Claim C3, amended: for a registered namespace, if the requested version
is positive, `get` returns the first entry whose owning plugin's version is
exactly the requested one (not the entry's own effective version), and fails
`MetricNotFound` when no entry's plugin has that version; if the requested
version is zero or negative, `get` returns an entry maximizing the effective
version `Version()` (explicit version when set, else the plugin's). -/
theorem get_version_resolution :
    (∀ (c : metricCatalog) (ns : List (List Char)) (ver : Int)
      (m : metricType) (mts : List metricType),
      0 < ver → MTTrie.Get c.tree ns = some mts →
      c.get ns ver = MCGetRes.found m →
      m ∈ mts ∧ ∃ p, m.plugin = some p ∧ p.version = ver)
    ∧ (∀ (c : metricCatalog) (ns : List (List Char)) (ver : Int)
      (mts : List metricType),
      0 < ver → MTTrie.Get c.tree ns = some mts → mts ≠ [] →
      (∀ m ∈ mts, ∃ p, m.plugin = some p ∧ p.version ≠ ver) →
      c.get ns ver = MCGetRes.err (CatalogError.metricNotFoundVer ns ver))
    ∧ (∀ (c : metricCatalog) (ns : List (List Char)) (ver : Int)
      (m : metricType) (mts : List metricType),
      ver ≤ 0 → MTTrie.Get c.tree ns = some mts →
      c.get ns ver = MCGetRes.found m →
      m ∈ mts ∧ ∀ x ∈ mts, x.Version ≤ m.Version) := by
  refine ⟨?_, ?_, ?_⟩
  · intro c ns ver m mts hver htree hget
    by_cases hemp : mts.isEmpty
    · simp [metricCatalog.get, metricCatalog.getVersions, htree, hemp] at hget
    · simp only [metricCatalog.get, metricCatalog.getVersions, htree, hemp,
        Bool.false_eq_true, if_false, gt_iff_lt, hver, if_true] at hget
      cases hgv : getVersion mts ver with
      | found m2 =>
        rw [hgv] at hget
        simp only [GetVerRes.found.injEq, MCGetRes.found.injEq] at hget
        subst hget
        exact getVersion_found_spec mts ver m2 hgv
      | err => rw [hgv] at hget; simp at hget
      | nilPanic => rw [hgv] at hget; simp at hget
  · intro c ns ver mts hver htree hne hall
    have hemp : ¬mts.isEmpty = true := by simpa [List.isEmpty_iff] using hne
    simp only [metricCatalog.get, metricCatalog.getVersions, htree, hemp,
      Bool.false_eq_true, if_false, gt_iff_lt, hver, if_true,
      getVersion_err_of_all mts ver hall]
  · intro c ns ver m mts hver htree hget
    by_cases hemp : mts.isEmpty
    · simp [metricCatalog.get, metricCatalog.getVersions, htree, hemp] at hget
    · have hnpos : ¬(0 < ver) := by omega
      simp only [metricCatalog.get, metricCatalog.getVersions, htree, hemp,
        Bool.false_eq_true, if_false, gt_iff_lt, hnpos] at hget
      cases hlat : getLatest mts with
      | none => rw [hlat] at hget; simp at hget
      | some m2 =>
        rw [hlat] at hget
        simp only [MCGetRes.found.injEq] at hget
        subst hget
        exact getLatest_spec mts m2 hlat

/-- Witness for `get_version_resolution` on the one-entry catalog holding
the version-5 entry owned by the version-1 plugin. -/
theorem get_version_resolution_witness :
    (mtA5 ∈ [mtA5] ∧ ∃ p, mtA5.plugin = some p ∧ p.version = 1)
    ∧ (newMetricCatalog.Add mtA5).get [['a']] 5 =
        MCGetRes.err (CatalogError.metricNotFoundVer [['a']] 5)
    ∧ (mtA5 ∈ [mtA5] ∧ ∀ x ∈ [mtA5], x.Version ≤ mtA5.Version) :=
  ⟨get_version_resolution.1 (newMetricCatalog.Add mtA5) [['a']] 1 mtA5 [mtA5]
      (by decide) (by decide) (by decide),
   get_version_resolution.2.1 (newMetricCatalog.Add mtA5) [['a']] 5 [mtA5]
      (by decide) (by decide) (by decide)
      (by
        intro m hm
        rw [List.mem_singleton] at hm
        subst hm
        exact ⟨lpA, rfl, by decide⟩),
   get_version_resolution.2.2 (newMetricCatalog.Add mtA5) [['a']] 0 mtA5 [mtA5]
      (by decide) (by decide) (by decide)⟩

/-! ## Wildcard match cache maintenance (claim C1) -/

theorem mem_mapInsert :
    ∀ (l : List (List Char × List (List Char))) (k : List Char)
      (v : List (List Char)) (p : List Char × List (List Char)),
      p ∈ mapInsert l k v → p = (k, v) ∨ p ∈ l := by
  intro l k v
  induction l with
  | nil =>
    intro p hp
    simp only [mapInsert, List.mem_singleton] at hp
    exact Or.inl hp
  | cons q rest ih =>
    obtain ⟨k2, v2⟩ := q
    intro p hp
    by_cases hk : k2 = k
    · simp only [mapInsert, if_pos hk] at hp
      rcases List.mem_cons.mp hp with heq | hmem
      · exact Or.inl heq
      · exact Or.inr (List.mem_cons_of_mem _ hmem)
    · simp only [mapInsert, if_neg hk] at hp
      rcases List.mem_cons.mp hp with heq | hmem
      · exact Or.inr (heq ▸ List.mem_cons_self _ _)
      · rcases ih p hmem with h | h
        · exact Or.inl h
        · exact Or.inr (List.mem_cons_of_mem _ h)

theorem mem_removeMatchedKeyAux :
    ∀ (l : List (List Char × List (List Char))) (key : List Char)
      (p : List Char × List (List Char)),
      p ∈ removeMatchedKeyAux key l →
      (∃ q ∈ l, p = (q.1, q.2.erase key)) ∧ p.2 ≠ [] := by
  intro l key
  induction l with
  | nil => intro p hp; exact absurd hp (List.not_mem_nil p)
  | cons q rest ih =>
    obtain ⟨wk, mkeys⟩ := q
    intro p hp
    simp only [removeMatchedKeyAux] at hp
    by_cases he : (mkeys.erase key).isEmpty
    · rw [if_pos he] at hp
      rcases ih p hp with ⟨⟨q2, hq2, hpe⟩, hne⟩
      exact ⟨⟨q2, List.mem_cons_of_mem _ hq2, hpe⟩, hne⟩
    · rw [if_neg he] at hp
      rcases List.mem_cons.mp hp with heq | hmem
      · refine ⟨⟨(wk, mkeys), List.mem_cons_self _ _, heq⟩, ?_⟩
        rw [heq]
        simpa [List.isEmpty_iff] using he
      · rcases ih p hmem with ⟨⟨q2, hq2, hpe⟩, hne⟩
        exact ⟨⟨q2, List.mem_cons_of_mem _ hq2, hpe⟩, hne⟩

theorem addItem_mKeys_cases :
    ∀ (c : metricCatalog) (wk : List Char) (p : List Char × List (List Char)),
      p ∈ (addItemToMatchingMap c wk).mKeys →
      (p.2 = computeMatchedKeys c.keys wk ∧ p.2 ≠ []) ∨ p ∈ c.mKeys := by
  intro c wk p hp
  simp only [addItemToMatchingMap, removeItemFromMatchingMap] at hp
  by_cases hm : (computeMatchedKeys c.keys wk).isEmpty
  · rw [if_pos hm] at hp
    exact Or.inr (List.mem_of_mem_filter hp)
  · rw [if_neg hm] at hp
    rcases mem_mapInsert c.mKeys wk (computeMatchedKeys c.keys wk) p hp with
      heq | hmem
    · left
      rw [heq]
      exact ⟨rfl, by simpa [List.isEmpty_iff] using hm⟩
    · exact Or.inr hmem

theorem addItem_noEmpty (c : metricCatalog) (wk : List Char)
    (h : noEmptyCache c) : noEmptyCache (addItemToMatchingMap c wk) := by
  intro p hp
  rcases addItem_mKeys_cases c wk p hp with ⟨_, hne⟩ | hmem
  · exact hne
  · exact h p hmem

theorem addItem_keys (c : metricCatalog) (wk : List Char) :
    (addItemToMatchingMap c wk).keys = c.keys := by
  simp only [addItemToMatchingMap, removeItemFromMatchingMap]
  split <;> rfl

theorem addItem_tree (c : metricCatalog) (wk : List Char) :
    (addItemToMatchingMap c wk).tree = c.tree := by
  simp only [addItemToMatchingMap, removeItemFromMatchingMap]
  split <;> rfl

theorem foldl_addItem_noEmpty :
    ∀ (wks : List (List Char)) (c : metricCatalog), noEmptyCache c →
      noEmptyCache (wks.foldl (fun acc wk => addItemToMatchingMap acc wk) c) := by
  intro wks
  induction wks with
  | nil => intro c h; exact h
  | cons wk rest ih =>
    intro c h
    simp only [List.foldl_cons]
    exact ih (addItemToMatchingMap c wk) (addItem_noEmpty c wk h)

theorem foldl_addItem_keys :
    ∀ (wks : List (List Char)) (c : metricCatalog),
      (wks.foldl (fun acc wk => addItemToMatchingMap acc wk) c).keys = c.keys := by
  intro wks
  induction wks with
  | nil => intro c; rfl
  | cons wk rest ih =>
    intro c
    simp only [List.foldl_cons]
    rw [ih, addItem_keys]

theorem foldl_addItem_tree :
    ∀ (wks : List (List Char)) (c : metricCatalog),
      (wks.foldl (fun acc wk => addItemToMatchingMap acc wk) c).tree = c.tree := by
  intro wks
  induction wks with
  | nil => intro c; rfl
  | cons wk rest ih =>
    intro c
    simp only [List.foldl_cons]
    rw [ih, addItem_tree]

/-- Claim C1 counterexample, part add: with /a/b registered and a.* cached,
adding /a/c leaves the cached query missing the new matching namespace;
part unload: after `RmUnloadedPluginMetrics` the re-derivation runs against
the stale key list, so the cached query still returns /a/b although nothing
is registered — in both states `GetQueriedNamespaces` does not return the
set of currently-registered namespaces matching the pattern. -/
theorem cache_stale_after_mutation :
    (cexAddState.GetQueriedNamespaces [['a'], ['*']] =
        QueryResult.ok [[['a'], ['b']]]
      ∧ MTTrie.Get cexAddState.tree [['a'], ['c']] = some [mtAC]
      ∧ reMatch (getMetricKey [['a'], ['*']]) (getMetricKey [['a'], ['c']]) = true
      ∧ [['a'], ['c']] ∉ [[['a'], ['b']]])
    ∧ (cexRmState.GetQueriedNamespaces [['a'], ['*']] =
        QueryResult.ok [[['a'], ['b']]]
      ∧ cexRmState.tree.nodes = []) := by
  decide

/-- Claim C1, amended: `Add` leaves the matching map untouched (so newly
added matching entries are missing from previously cached queries), and
`RmUnloadedPluginMetrics` re-derives against the stale key list (so removed
entries can persist in cached queries); what does hold after every mutation
is that no cached query key maps to an empty list — an emptied match set is
dropped, not retained — and `Remove` purges the removed namespace's key from
every cached match list. -/
theorem cache_maintenance_after_mutation :
    (∀ (c : metricCatalog) (m : metricType), (c.Add m).mKeys = c.mKeys)
    ∧ (∀ (c : metricCatalog) (m : metricType),
        noEmptyCache c → noEmptyCache (c.Add m))
    ∧ (∀ (c : metricCatalog) (ns : List (List Char)),
        noEmptyCache (c.Remove ns))
    ∧ (∀ (c : metricCatalog) (lp : loadedPlugin),
        noEmptyCache c → noEmptyCache (c.RmUnloadedPluginMetrics lp))
    ∧ (∀ (c : metricCatalog) (ns : List (List Char)),
        (∀ p ∈ c.mKeys, p.2.Nodup) →
        ∀ p ∈ (c.Remove ns).mKeys, getMetricKey ns ∉ p.2) := by
  refine ⟨fun c m => rfl, ?_, ?_, ?_, ?_⟩
  · intro c m h p hp
    exact h p hp
  · intro c ns p hp
    exact (mem_removeMatchedKeyAux c.mKeys (getMetricKey ns) p hp).2
  · intro c lp h
    exact foldl_addItem_noEmpty _ _ h
  · intro c ns hnd p hp
    rcases mem_removeMatchedKeyAux c.mKeys (getMetricKey ns) p hp with
      ⟨⟨q, hq, hpe⟩, _⟩
    rw [hpe]
    exact (hnd q hq).not_mem_erase

/-- Witness for `cache_maintenance_after_mutation` on the concrete cached
state: adding /a/c and removing /a/b both keep the cache free of empty
lists, and the removal purges the key a.b. -/
theorem cache_maintenance_witness :
    noEmptyCache (cexAddState.Add mtAC)
    ∧ noEmptyCache (cexAddState.RmUnloadedPluginMetrics lpA)
    ∧ (∀ p ∈ (cexAddState.Remove [['a'], ['b']]).mKeys,
        getMetricKey [['a'], ['b']] ∉ p.2) :=
  ⟨cache_maintenance_after_mutation.2.1 cexAddState mtAC
      (by unfold noEmptyCache; decide),
   cache_maintenance_after_mutation.2.2.2.1 cexAddState lpA
      (by unfold noEmptyCache; decide),
   cache_maintenance_after_mutation.2.2.2.2 cexAddState [['a'], ['b']]
      (by decide)⟩

/-! ## Key list of the catalog (claim C2) -/

theorem appendIfMissing_self_mem (l : List (List Char)) (k : List Char) :
    k ∈ appendIfMissing l k := by
  unfold appendIfMissing
  split
  · assumption
  · simp

theorem appendIfMissing_mem_mono {l : List (List Char)} {x : List Char}
    (k : List Char) (h : x ∈ l) : x ∈ appendIfMissing l k := by
  unfold appendIfMissing
  split
  · exact h
  · exact List.mem_append_left _ h

theorem appendIfMissing_nodup {l : List (List Char)} (k : List Char)
    (h : l.Nodup) : (appendIfMissing l k).Nodup := by
  unfold appendIfMissing
  split
  · exact h
  · rename_i hk
    simp [List.nodup_append, h, hk]

theorem count_one_of_nodup_mem :
    ∀ (l : List (List Char)) (k : List Char), l.Nodup → k ∈ l →
      l.count k = 1 := by
  intro l k
  induction l with
  | nil => intro _ hm; exact absurd hm (List.not_mem_nil k)
  | cons x rest ih =>
    intro hnd hm
    rw [List.nodup_cons] at hnd
    obtain ⟨hx, hrest⟩ := hnd
    rcases List.mem_cons.mp hm with heq | hmem
    · subst heq
      rw [List.count_cons_self]
      have hz : rest.count k = 0 := by
        rw [List.count_eq_zero]
        exact hx
      omega
    · have hne : k ≠ x := fun h => hx (h ▸ hmem)
      rw [List.count_cons_of_ne hne, ih hrest hmem]

theorem appendIfMissing_count_one {l : List (List Char)} (k : List Char)
    (h : l.Nodup) : (appendIfMissing l k).count k = 1 :=
  count_one_of_nodup_mem (appendIfMissing l k) k (appendIfMissing_nodup k h)
    (appendIfMissing_self_mem l k)

theorem mem_trieNodesAdd :
    ∀ (nodes : List (List (List Char) × List (Int × metricType)))
      (ns : List (List Char)) (ver : Int) (m : metricType)
      (nd : List (List Char) × List (Int × metricType)),
      nd ∈ trieNodesAdd nodes ns ver m → nd.1 = ns ∨ nd ∈ nodes := by
  intro nodes ns ver m
  induction nodes with
  | nil =>
    intro nd hnd
    simp only [trieNodesAdd, List.mem_singleton] at hnd
    rw [hnd]
    exact Or.inl rfl
  | cons q rest ih =>
    obtain ⟨ns2, vs⟩ := q
    intro nd hnd
    by_cases h : ns2 = ns
    · simp only [trieNodesAdd, if_pos h] at hnd
      rcases List.mem_cons.mp hnd with heq | hmem
      · rw [heq]
        exact Or.inl h
      · exact Or.inr (List.mem_cons_of_mem _ hmem)
    · simp only [trieNodesAdd, if_neg h] at hnd
      rcases List.mem_cons.mp hnd with heq | hmem
      · exact Or.inr (heq ▸ List.mem_cons_self _ _)
      · rcases ih nd hmem with hl | hr
        · exact Or.inl hl
        · exact Or.inr (List.mem_cons_of_mem _ hr)

theorem registeredAt_add {t : MTTrie} {m : metricType} {ns : List (List Char)}
    (h : registeredAt (t.Add m) ns) : ns = m.nspace ∨ registeredAt t ns := by
  rcases h with ⟨nd, hnd, hns, hne⟩
  rcases mem_trieNodesAdd t.nodes m.nspace m.Version m nd hnd with hl | hr
  · exact Or.inl (by rw [← hns, hl])
  · exact Or.inr ⟨nd, hr, hns, hne⟩

theorem registeredAt_remove {t : MTTrie} {ns0 ns : List (List Char)}
    (h : registeredAt (t.Remove ns0) ns) : registeredAt t ns := by
  rcases h with ⟨nd, hnd, hns, hne⟩
  exact ⟨nd, List.mem_of_mem_filter hnd, hns, hne⟩

theorem registeredAt_deleteByPlugin {t : MTTrie} {lp : loadedPlugin}
    {ns : List (List Char)} (h : registeredAt (t.DeleteByPlugin lp) ns) :
    registeredAt t ns := by
  rcases h with ⟨nd, hnd, hns, hne⟩
  have hnd2 := List.mem_of_mem_filter hnd
  rcases List.mem_map.mp hnd2 with ⟨nd0, hnd0, hfeq⟩
  refine ⟨nd0, hnd0, ?_, ?_⟩
  · rw [← hns, ← hfeq]
  · intro hemp
    apply hne
    rw [← hfeq]
    simp [hemp]

/-- Claim C2 counterexample: after adding /a/b and removing it, the key list
still contains a.b although the namespace /a/b has no registered version —
`Remove` (like `RmUnloadedPluginMetrics`) never prunes the key list, so the
key list is not the set of keys with at least one registered version. -/
theorem keys_retained_after_remove :
    cexRemoveState.keys = ["a.b".toList]
    ∧ MTTrie.Get cexRemoveState.tree [['a'], ['b']] = none
    ∧ getMetricNamespace "a.b".toList = [['a'], ['b']] := by
  decide

/-- Claim C2, amended: `Add` does put the entry's key in the key list with
no duplicates, and the key list always covers the registered namespaces
(every namespace with a registered version has its key listed); but `Remove`
and `RmUnloadedPluginMetrics` leave the key list completely unchanged, so
keys of namespaces with no remaining registered version stay in the list and
the claimed equality fails. -/
theorem key_list_covers_registered :
    (∀ (c : metricCatalog) (m : metricType),
      getMetricKey m.nspace ∈ (c.Add m).keys)
    ∧ (∀ (c : metricCatalog) (m : metricType),
      c.keys.Nodup → (c.Add m).keys.Nodup)
    ∧ (∀ (c : metricCatalog) (m : metricType),
      keysCoverTree c → keysCoverTree (c.Add m))
    ∧ (∀ (c : metricCatalog) (ns : List (List Char)),
      (c.Remove ns).keys = c.keys)
    ∧ (∀ (c : metricCatalog) (ns : List (List Char)),
      keysCoverTree c → keysCoverTree (c.Remove ns))
    ∧ (∀ (c : metricCatalog) (lp : loadedPlugin),
      (c.RmUnloadedPluginMetrics lp).keys = c.keys)
    ∧ (∀ (c : metricCatalog) (lp : loadedPlugin),
      keysCoverTree c → keysCoverTree (c.RmUnloadedPluginMetrics lp)) := by
  refine ⟨?_, ?_, ?_, fun c ns => rfl, ?_, ?_, ?_⟩
  · intro c m
    exact appendIfMissing_self_mem c.keys (getMetricKey m.nspace)
  · intro c m h
    exact appendIfMissing_nodup _ h
  · intro c m h ns hreg
    rcases registeredAt_add hreg with heq | hpre
    · rw [heq]
      exact appendIfMissing_self_mem c.keys (getMetricKey m.nspace)
    · exact appendIfMissing_mem_mono _ (h ns hpre)
  · intro c ns h ns2 hreg
    exact h ns2 (registeredAt_remove hreg)
  · intro c lp
    exact foldl_addItem_keys _ _
  · intro c lp h ns hreg
    have htree : (c.RmUnloadedPluginMetrics lp).tree = c.tree.DeleteByPlugin lp :=
      foldl_addItem_tree _ _
    have hkeys : (c.RmUnloadedPluginMetrics lp).keys = c.keys :=
      foldl_addItem_keys _ _
    rw [htree] at hreg
    rw [hkeys]
    exact h ns (registeredAt_deleteByPlugin hreg)

/-- Witness for `key_list_covers_registered` on the one-entry catalog. -/
theorem key_list_covers_registered_witness :
    (newMetricCatalog.Add mtAB).keys.Nodup
    ∧ keysCoverTree (newMetricCatalog.Add mtAB)
    ∧ keysCoverTree ((newMetricCatalog.Add mtAB).Remove [['a'], ['b']]) := by
  have hbase : keysCoverTree newMetricCatalog := by
    intro ns hreg
    rcases hreg with ⟨nd, hnd, _, _⟩
    exact absurd hnd (List.not_mem_nil nd)
  have hadd := key_list_covers_registered.2.2.1 newMetricCatalog mtAB hbase
  exact ⟨key_list_covers_registered.2.1 newMetricCatalog mtAB List.nodup_nil,
    hadd,
    key_list_covers_registered.2.2.2.2.1 (newMetricCatalog.Add mtAB)
      [['a'], ['b']] hadd⟩

/-! ## Idempotence of Add per (namespace, version) (claim C8) -/

theorem trieNodesGet_add :
    ∀ (nodes : List (List (List Char) × List (Int × metricType)))
      (ns : List (List Char)) (ver : Int) (m : metricType),
      trieNodesGet (trieNodesAdd nodes ns ver m) ns =
        some (updateVersionList ((trieNodesGet nodes ns).getD []) ver m) := by
  intro nodes ns ver m
  induction nodes with
  | nil => simp [trieNodesAdd, trieNodesGet, updateVersionList]
  | cons nd rest ih =>
    obtain ⟨ns2, vs⟩ := nd
    by_cases h : ns2 = ns
    · simp [trieNodesAdd, trieNodesGet, h]
    · simp [trieNodesAdd, trieNodesGet, h, ih]

theorem verLookup_update :
    ∀ (vs : List (Int × metricType)) (ver : Int) (m : metricType),
      verLookup (updateVersionList vs ver m) ver = some m := by
  intro vs ver m
  induction vs with
  | nil => simp [updateVersionList, verLookup]
  | cons ve rest ih =>
    obtain ⟨v, e⟩ := ve
    by_cases h : v = ver
    · simp [updateVersionList, verLookup, h]
    · simp [updateVersionList, verLookup, h, ih]

theorem update_keys_mem :
    ∀ (vs : List (Int × metricType)) (ver x : Int) (m : metricType),
      x ∈ (updateVersionList vs ver m).map Prod.fst →
      x ∈ vs.map Prod.fst ∨ x = ver := by
  intro vs ver x m
  induction vs with
  | nil =>
    intro h
    simp only [updateVersionList, List.map_cons, List.map_nil,
      List.mem_singleton] at h
    exact Or.inr h
  | cons ve rest ih =>
    obtain ⟨v, e⟩ := ve
    intro h
    by_cases hv : v = ver
    · simp only [updateVersionList, if_pos hv, List.map_cons,
        List.mem_cons] at h
      rcases h with heq | hmem
      · exact Or.inr heq
      · exact Or.inl (by simp [hmem])
    · simp only [updateVersionList, if_neg hv, List.map_cons,
        List.mem_cons] at h
      rcases h with heq | hmem
      · exact Or.inl (by simp [heq])
      · rcases ih hmem with hl | hr
        · exact Or.inl (List.mem_cons_of_mem _ hl)
        · exact Or.inr hr

theorem update_keys_nodup :
    ∀ (vs : List (Int × metricType)) (ver : Int) (m : metricType),
      (vs.map Prod.fst).Nodup →
      ((updateVersionList vs ver m).map Prod.fst).Nodup := by
  intro vs ver m
  induction vs with
  | nil => intro _; simp [updateVersionList]
  | cons ve rest ih =>
    obtain ⟨v, e⟩ := ve
    intro h
    simp only [List.map_cons, List.nodup_cons] at h
    obtain ⟨hv, hrest⟩ := h
    by_cases hveq : v = ver
    · subst hveq
      simp [updateVersionList, List.nodup_cons, hv, hrest]
    · simp only [updateVersionList, if_neg hveq, List.map_cons,
        List.nodup_cons]
      refine ⟨?_, ih hrest⟩
      intro hmem
      rcases update_keys_mem rest ver v m hmem with hl | hr
      · exact hv hl
      · exact hveq hr

theorem update_filter_count :
    ∀ (vs : List (Int × metricType)) (ver : Int) (m : metricType),
      (vs.map Prod.fst).Nodup →
      ((updateVersionList vs ver m).filter
        (fun ve => decide (ve.1 = ver))).length = 1 := by
  intro vs ver m
  induction vs with
  | nil => intro _; simp [updateVersionList]
  | cons ve rest ih =>
    obtain ⟨v, e⟩ := ve
    intro h
    simp only [List.map_cons, List.nodup_cons] at h
    obtain ⟨hv, hrest⟩ := h
    by_cases hveq : v = ver
    · subst hveq
      have hrf : rest.filter (fun ve => decide (ve.1 = v)) = [] := by
        rw [List.filter_eq_nil_iff]
        intro ve hve
        simp only [decide_eq_true_eq]
        intro hc
        exact hv (hc ▸ List.mem_map_of_mem Prod.fst hve)
      simp [updateVersionList, List.filter_cons, hrf]
    · simp only [updateVersionList, if_neg hveq, List.filter_cons]
      have hc : ¬(decide ((v, e).1 = ver) = true) := by simp [hveq]
      rw [if_neg hc]
      exact ih hrest

/-- Claim C8: adding twice at the same namespace and effective version
leaves exactly one entry registered at that (namespace, version) — the
second entry, overwriting the first — and the canonical key appears exactly
once in the catalog key list.  (The trie is modelled from the spec; the
hypotheses are the reachable-state invariants that the key list and the
per-node version keys are duplicate-free.) -/
theorem add_idempotent_per_namespace_version :
    ∀ (c : metricCatalog) (m1 m2 : metricType),
      m1.nspace = m2.nspace → m1.Version = m2.Version → c.keys.Nodup →
      (∀ vs, trieNodesGet c.tree.nodes m2.nspace = some vs →
        (vs.map Prod.fst).Nodup) →
      (∃ vs, trieNodesGet ((c.Add m1).Add m2).tree.nodes m2.nspace = some vs
        ∧ verLookup vs m2.Version = some m2
        ∧ (vs.filter (fun ve => decide (ve.1 = m2.Version))).length = 1)
      ∧ ((c.Add m1).Add m2).keys.count (getMetricKey m2.nspace) = 1 := by
  intro c m1 m2 hns hver hkeys hnodup
  have hAdd1 : (c.Add m1).tree.nodes =
      trieNodesAdd c.tree.nodes m2.nspace m2.Version m1 := by
    rw [← hns, ← hver]; rfl
  have hAdd2 : ((c.Add m1).Add m2).tree.nodes =
      trieNodesAdd (trieNodesAdd c.tree.nodes m2.nspace m2.Version m1)
        m2.nspace m2.Version m2 := by
    show trieNodesAdd (c.Add m1).tree.nodes m2.nspace m2.Version m2 = _
    rw [hAdd1]
  constructor
  · refine ⟨updateVersionList
      (updateVersionList ((trieNodesGet c.tree.nodes m2.nspace).getD [])
        m2.Version m1) m2.Version m2, ?_, verLookup_update _ _ _, ?_⟩
    · rw [hAdd2, trieNodesGet_add, trieNodesGet_add, Option.getD_some]
    · have hvs0 :
          (((trieNodesGet c.tree.nodes m2.nspace).getD []).map Prod.fst).Nodup := by
        cases hg : trieNodesGet c.tree.nodes m2.nspace with
        | none => simp
        | some vs => simpa using hnodup vs hg
      exact update_filter_count _ m2.Version m2
        (update_keys_nodup _ m2.Version m1 hvs0)
  · show (appendIfMissing (appendIfMissing c.keys (getMetricKey m1.nspace))
      (getMetricKey m2.nspace)).count (getMetricKey m2.nspace) = 1
    rw [hns]
    exact appendIfMissing_count_one _ (appendIfMissing_nodup _ hkeys)

/-- Witness for `add_idempotent_per_namespace_version`: adding /a at
version 5 from two distinct plugins in a row leaves the second entry as the
only one registered at (a, 5), with the key a listed once. -/
theorem add_idempotent_witness :
    (∃ vs,
      trieNodesGet ((newMetricCatalog.Add mtA5).Add mtA5b).tree.nodes
          mtA5b.nspace = some vs
      ∧ verLookup vs mtA5b.Version = some mtA5b
      ∧ (vs.filter (fun ve => decide (ve.1 = mtA5b.Version))).length = 1)
    ∧ ((newMetricCatalog.Add mtA5).Add mtA5b).keys.count
        (getMetricKey mtA5b.nspace) = 1 :=
  add_idempotent_per_namespace_version newMetricCatalog mtA5 mtA5b rfl
    (by decide) List.nodup_nil (fun vs h => Option.noConfusion h)
